import Mathlib

/-!
# Verification of `smalldb` (crazywolf132/smalldb)

A shallow embedding of the `smalldb` Go package: a minimal in-process
key-value store keeping its mapping in memory and mirroring it to a single
JSON file after every mutation.

Modelling choices:

* A Go `map[string]T` is modelled as an association list `Map α` with
  no duplicate keys (the well-formedness predicate `Map.WF`).  `db.data[key] = value`
  becomes `Map.insert` (replace in place, or append when absent), `delete(db.data, key)`
  becomes `Map.erase`, and `value, exists := db.data[key]` becomes `Map.get`
  returning an `Option` (the Go `(T, bool)` pair).
* The filesystem is a `World`: the single backing file at the store's path
  (`none` = no file, `some fc` = a file with content `fc`), a flag for the
  containing directory, and a `writeFails` flag modelling an I/O fault on write
  (Go: `os.OpenFile` or `encoder.Encode` returning an error).
* The JSON text produced by `encoding/json` is modelled at tree granularity by
  `Json`; the lexical byte layer (UTF-8, indentation) is out of scope per the
  package's design.  A file's content is `FileContent`: empty, a well-formed
  JSON document, or malformed bytes.
* The element type `T` is a type parameter `α` together with a `Codec α`
  (the reflection-based per-value encoder/decoder of `encoding/json`).
-/

set_option autoImplicit false

namespace SmallDB

universe u

variable {α : Type u}

/-- Go `error` values surfaced by the store. -/
inductive Err where
  /-- a failure from `os.OpenFile` / `encoder.Encode` inside `writeData` -/
  | writeErr : Err
  /-- a failure from `json.Unmarshal` inside `readData` -/
  | decodeErr : Err
  /-- an arbitrary error returned by a caller-supplied batch function -/
  | batchErr : Nat → Err
deriving DecidableEq, Repr

/-- Model of Go `map[string]T`: an association list with unique keys. -/
abbrev Map (α : Type u) : Type u := List (String × α)

namespace Map

/-- The empty map (`make(map[string]T)`). -/
def empty : Map α := []

/-- `value, exists := m[key]` — lookup returning the Go `(T, bool)` pair as an `Option`. -/
def get : Map α → String → Option α
  | [], _ => none
  | (k', v') :: rest, k => if k = k' then some v' else get rest k

/-- `m[key] = value` — insert or overwrite in place. -/
def insert : Map α → String → α → Map α
  | [], k, v => [(k, v)]
  | (k', v') :: rest, k, v =>
    if k = k' then (k, v) :: rest else (k', v') :: insert rest k v

/-- `delete(m, key)` — remove the key if present, a no-op otherwise. -/
def erase : Map α → String → Map α
  | [], _ => []
  | (k', v') :: rest, k => if k = k' then rest else (k', v') :: erase rest k

/-- The keys of the map, in representation order. -/
def keys (m : Map α) : List String := m.map Prod.fst

/-- Well-formedness: a Go map binds each key at most once. -/
def WF (m : Map α) : Prop := m.keys.Nodup

end Map

/-- `cloneMap` (`db.go` helpers): a shallow copy of the map.  In the pure model
copying an association list element-by-element reproduces it. -/
def cloneMap (original : Map α) : Map α :=
  original.foldr (fun p acc => (p.1, p.2) :: acc) []

/-- A JSON document, at tree granularity (the byte layer of `encoding/json` is
out of scope: the spec treats the serialization format as the host
environment's encoder). -/
inductive Json : Type where
  | null : Json
  | num : Int → Json
  | str : String → Json
  | obj : List (String × Json) → Json

/-- The per-value encoder/decoder `encoding/json` derives by reflection for the
element type `T`. -/
structure Codec (α : Type u) : Type u where
  enc : α → Json
  dec : Json → Option α

/-- A codec for `T` is lossless (spec §3: `T` is any type losslessly
convertible to and from the structured-text format). -/
def Codec.RoundTrip (c : Codec α) : Prop := ∀ v : α, c.dec (c.enc v) = some v

/-- `json.Marshal` of a `map[string]T`: a JSON object with one field per
entry. -/
def encodeMap (c : Codec α) (m : Map α) : Json :=
  .obj (m.map fun p => (p.1, c.enc p.2))

/-- `json.Unmarshal` of a JSON object's fields into a `map[string]T`:
decode each field's value and store it under its key (later duplicates
overwrite earlier ones). -/
def decodeEntries (c : Codec α) : List (String × Json) → Map α → Option (Map α)
  | [], m => some m
  | (k, j) :: rest, m =>
    match c.dec j with
    | some v => decodeEntries c rest (m.insert k v)
    | none => none

/-- `json.Unmarshal` of a document into a `map[string]T`: only an object (or
JSON `null`, which leaves the pre-made empty map untouched) is accepted;
any other shape is a decode error. -/
def decodeMap (c : Codec α) : Json → Option (Map α)
  | .obj fields => decodeEntries c fields Map.empty
  | .null => some Map.empty
  | _ => none

/-- The content of the backing file. -/
inductive FileContent : Type where
  /-- the file exists but is zero-length -/
  | empty : FileContent
  /-- a well-formed JSON document -/
  | json : Json → FileContent
  /-- bytes that are not a JSON document -/
  | malformed : FileContent

/-- The filesystem state at the store's location. -/
structure World : Type where
  /-- whether the containing directory exists -/
  dirExists : Bool
  /-- the backing file: `none` when no file exists at the location -/
  file : Option FileContent
  /-- models an I/O fault on write (`os.OpenFile`/`encoder.Encode` failing) -/
  writeFails : Bool

/-- `readData` (persistence file): read the file into a map.  A missing file
and an empty file are both the empty dataset; a non-empty file must decode. -/
def readData (c : Codec α) (file : Option FileContent) : Except Err (Map α) :=
  match file with
  | none => .ok Map.empty
  | some .empty => .ok Map.empty
  | some (.json j) =>
    match decodeMap c j with
    | some m => .ok m
    | none => .error .decodeErr
  | some .malformed => .error .decodeErr

/-- `writeData` (persistence file): truncate/create the file and encode the
map into it; surface any I/O failure. -/
def writeData (c : Codec α) (w : World) (m : Map α) : World × Option Err :=
  if w.writeFails then (w, some .writeErr)
  else ({ w with file := some (.json (encodeMap c m)) }, none)

/-- `DB` (`db.go`): the store.  The file path is implicit (the model tracks the
single location's `World` separately); the mutex is not modelled — the
embedding is sequential, every operation runs under the lock. -/
structure DB (α : Type u) : Type u where
  data : Map α

/-- `Tx` (transaction file): a transaction's private working copy plus a
reference to the owning store (the reference is unused by `Tx`'s own
operations, so the model keeps only the working copy). -/
structure Tx (α : Type u) : Type u where
  data : Map α

namespace Tx

/-- `Tx.Get`: lookup in the working copy. -/
def Get (tx : Tx α) (key : String) : Option α := tx.data.get key

/-- `Tx.Set`: write into the working copy. -/
def Set (tx : Tx α) (key : String) (value : α) : Tx α := ⟨tx.data.insert key value⟩

/-- `Tx.Delete`: remove from the working copy. -/
def Delete (tx : Tx α) (key : String) : Tx α := ⟨tx.data.erase key⟩

end Tx

/-- `Open`: create the containing directory, load existing data from the
location, and return the store (or the read/decode error). -/
def Open (c : Codec α) (w : World) : Except Err (DB α) × World :=
  let w' := { w with dirExists := true }
  match readData c w'.file with
  | .ok data => (.ok ⟨data⟩, w')
  | .error e => (.error e, w')

namespace DB

/-- `DB.Get`: lookup under the read lock; returns the Go `(T, bool)` pair as
an `Option`. -/
def Get (db : DB α) (key : String) : Option α := db.data.get key

/-- `DB.persist`: write the in-memory data to the file. -/
def persist (c : Codec α) (db : DB α) (w : World) : World × Option Err :=
  writeData c w db.data

/-- `DB.Set`: update the mapping, then persist; the persist error (if any) is
returned with the mapping already updated. -/
def Set (c : Codec α) (db : DB α) (w : World) (key : String) (value : α) :
    DB α × World × Option Err :=
  let db' : DB α := ⟨db.data.insert key value⟩
  let (w', e) := persist c db' w
  (db', w', e)

/-- `DB.Delete`: remove the key (a no-op when absent), then persist. -/
def Delete (c : Codec α) (db : DB α) (w : World) (key : String) :
    DB α × World × Option Err :=
  let db' : DB α := ⟨db.data.erase key⟩
  let (w', e) := persist c db' w
  (db', w', e)

/-- `DB.GetAll`: an independent full copy of the mapping. -/
def GetAll (db : DB α) : Map α :=
  cloneMap db.data

/-- `DB.Transaction`: clone the mapping into a working copy, run the batch
function on it; on failure return the failure with the store untouched, on
success install the working copy wholesale and persist once.  The batch
function is modelled as any function from the transaction to its final
state plus the Go `error` result. -/
def Transaction (c : Codec α) (db : DB α) (w : World)
    (fn : Tx α → Tx α × Option Err) : DB α × World × Option Err :=
  let tx : Tx α := ⟨cloneMap db.data⟩
  let (tx', r) := fn tx
  match r with
  | some e => (db, w, some e)
  | none =>
    let db' : DB α := ⟨tx'.data⟩
    let (w', e) := persist c db' w
    (db', w', e)

end DB

/-- A concrete codec for `T = int`, used to evaluate the model at concrete
inputs. -/
def intCodec : Codec Int where
  enc := Json.num
  dec := fun j => match j with | .num n => some n | _ => none

/-! ## Aliasing model

Go maps are reference values, so "mutating the map returned by `GetAll`"
is only observable in a model with an explicit heap of map objects.  The
store holds a reference to its map object; `GetAll` allocates a fresh
object holding a copy of the entries and returns the fresh reference,
exactly as the copy loop in `db.go` does.  Values, however, are copied by
plain Go assignment, i.e. shallowly: when the element type `T` is itself a
reference type (a pointer, slice or map), the returned entries alias the
store's values.  `Ptr` plays the role of such a `T`, with a heap of
pointees `PtrHeap`. -/

namespace Aliasing

/-- A reference to a heap-allocated Go map object. -/
abbrev MapRef := Nat

/-- The heap of Go map objects. -/
structure MapHeap (α : Type u) : Type u where
  objs : List (MapRef × Map α)
  next : MapRef

/-- Dereference a map object. -/
def MapHeap.deref (h : MapHeap α) (r : MapRef) : Option (Map α) :=
  (h.objs.find? (fun p => p.1 == r)).map Prod.snd

/-- `make(map[string]T, n)`: allocate a fresh map object. -/
def MapHeap.alloc (h : MapHeap α) (m : Map α) : MapHeap α × MapRef :=
  (⟨(h.next, m) :: h.objs, h.next + 1⟩, h.next)

/-- `m[k] = v` executed on the map object behind `r`. -/
def MapHeap.assign (h : MapHeap α) (r : MapRef) (k : String) (v : α) :
    MapHeap α :=
  ⟨h.objs.map (fun p => if p.1 = r then (p.1, p.2.insert k v) else p), h.next⟩

/-- All allocated references are below `next` (maintained by `alloc`). -/
def MapHeap.WF (h : MapHeap α) : Prop := ∀ p ∈ h.objs, p.1 < h.next

/-- The store under the aliasing model: it holds a reference to its map
object. -/
structure DBref (α : Type u) : Type u where
  dataRef : MapRef

/-- `DB.GetAll` under the aliasing model: allocate a fresh map, copy every
entry of the store's map into it, return the fresh reference. -/
def GetAll (h : MapHeap α) (db : DBref α) : MapHeap α × MapRef :=
  h.alloc (cloneMap ((h.deref db.dataRef).getD Map.empty))

/-- A Go pointer value (the element type `T` instantiated at a reference
type such as a pointer to int). -/
abbrev Ptr := Nat

/-- The heap of pointees behind values of type `Ptr`. -/
structure PtrHeap : Type where
  cells : List (Ptr × Int)

/-- Read through a pointer. -/
def PtrHeap.read (h : PtrHeap) (r : Ptr) : Option Int :=
  (h.cells.find? (fun p => p.1 == r)).map Prod.snd

/-- Write through a pointer. -/
def PtrHeap.write (h : PtrHeap) (r : Ptr) (n : Int) : PtrHeap :=
  ⟨h.cells.map (fun p => if p.1 = r then (p.1, n) else p)⟩

/-- The store's observable contents when values are pointers: each key with
the value its stored pointer refers to (this is what a `Get` plus a
dereference, or the persisted JSON encoding, exposes). -/
def derefAll (vh : PtrHeap) (m : Map Ptr) : List (String × Option Int) :=
  m.map (fun p => (p.1, vh.read p.2))

end Aliasing


/-! ## Supporting lemmas -/

namespace Map

theorem keys_insert (m : Map α) (k : String) (v : α) :
    (m.insert k v).keys = if k ∈ m.keys then m.keys else m.keys ++ [k] := by
  induction m with
  | nil => simp [insert, keys]
  | cons p rest ih =>
    obtain ⟨k', v'⟩ := p
    by_cases hk : k = k'
    · subst hk
      simp [insert, keys]
    · simp only [insert, if_neg hk, keys, List.map_cons] at ih ⊢
      rw [ih]
      simp only [List.mem_cons]
      have : (k = k') = False := by simp [hk]
      by_cases hmem : k ∈ List.map Prod.fst rest <;> simp [hmem, hk]

theorem get_insert_self (m : Map α) (k : String) (v : α) :
    (m.insert k v).get k = some v := by
  induction m with
  | nil => simp [insert, get]
  | cons p rest ih =>
    obtain ⟨k', v'⟩ := p
    by_cases hk : k = k'
    · subst hk; simp [insert, get]
    · simp [insert, hk, get, ih]

theorem get_insert_ne (m : Map α) (k k₂ : String) (v : α) (h : k₂ ≠ k) :
    (m.insert k v).get k₂ = m.get k₂ := by
  induction m with
  | nil => simp [insert, get, h]
  | cons p rest ih =>
    obtain ⟨k', v'⟩ := p
    by_cases hk : k = k'
    · subst hk; simp [insert, get, h]
    · by_cases hk2 : k₂ = k'
      · subst hk2; simp [insert, hk, get]
      · simp [insert, hk, get, hk2, ih]

theorem get_eq_none_of_not_mem_keys (m : Map α) (k : String) (h : k ∉ m.keys) :
    m.get k = none := by
  induction m with
  | nil => rfl
  | cons p rest ih =>
    obtain ⟨k', v'⟩ := p
    simp only [keys, List.map_cons, List.mem_cons] at h
    push_neg at h
    simp [get, h.1, ih (by simpa [keys] using h.2)]

theorem keys_erase_sublist (m : Map α) (k : String) :
    (m.erase k).keys.Sublist m.keys := by
  induction m with
  | nil => simp [erase, keys]
  | cons p rest ih =>
    obtain ⟨k', v'⟩ := p
    by_cases hk : k = k'
    · subst hk
      simp only [erase, if_pos rfl, keys, List.map_cons]
      exact (List.Sublist.refl _).cons _
    · simp only [erase, if_neg hk, keys, List.map_cons] at ih ⊢
      exact ih.cons₂ _

theorem WF_insert (m : Map α) (k : String) (v : α) (h : m.WF) :
    (m.insert k v).WF := by
  unfold WF at h ⊢
  rw [keys_insert]
  by_cases hmem : k ∈ m.keys
  · simpa [hmem]
  · simpa [hmem] using (List.nodup_append.mpr ⟨h, List.nodup_singleton k, by
      simp [List.disjoint_singleton, hmem]⟩)

theorem WF_erase (m : Map α) (k : String) (h : m.WF) :
    (m.erase k).WF := (keys_erase_sublist m k).nodup h

theorem get_erase_self (m : Map α) (k : String) (h : m.WF) :
    (m.erase k).get k = none := by
  induction m with
  | nil => rfl
  | cons p rest ih =>
    obtain ⟨k', v'⟩ := p
    unfold WF keys at h
    simp only [List.map_cons, List.nodup_cons] at h
    by_cases hk : k = k'
    · subst hk
      simp only [erase, if_pos rfl]
      exact get_eq_none_of_not_mem_keys rest k h.1
    · simp [erase, hk, get, ih h.2]

theorem get_erase_ne (m : Map α) (k k₂ : String) (h : k₂ ≠ k) :
    (m.erase k).get k₂ = m.get k₂ := by
  induction m with
  | nil => rfl
  | cons p rest ih =>
    obtain ⟨k', v'⟩ := p
    by_cases hk : k = k'
    · subst hk
      simp [erase, get, h]
    · by_cases hk2 : k₂ = k'
      · subst hk2; simp [erase, hk, get]
      · simp [erase, hk, get, hk2, ih]

theorem insert_insert_same (m : Map α) (k : String) (v : α) :
    ((m.insert k v).insert k v) = m.insert k v := by
  induction m with
  | nil => simp [insert]
  | cons p rest ih =>
    obtain ⟨k', v'⟩ := p
    by_cases hk : k = k'
    · subst hk; simp [insert]
    · simp [insert, hk, ih]

end Map

theorem cloneMap_eq (m : Map α) : cloneMap m = m := by
  induction m with
  | nil => rfl
  | cons p rest ih =>
    obtain ⟨a, b⟩ := p
    simp only [cloneMap, List.foldr] at ih ⊢
    exact congrArg _ ih

/-! ## Codec lemmas -/

theorem Map.insert_of_not_mem_keys (m : Map α) (k : String) (v : α)
    (h : k ∉ m.keys) : m.insert k v = m ++ [(k, v)] := by
  induction m with
  | nil => rfl
  | cons p rest ih =>
    obtain ⟨k', v'⟩ := p
    simp only [keys, List.map_cons, List.mem_cons] at h
    push_neg at h
    simp [Map.insert, h.1, ih (by simpa [keys] using h.2)]

theorem decodeEntries_append_of_disjoint (c : Codec α) (hc : c.RoundTrip)
    (m acc : Map α) (hm : m.WF) (hdisj : ∀ k, k ∈ m.keys → k ∉ acc.keys) :
    decodeEntries c (m.map fun p => (p.1, c.enc p.2)) acc = some (acc ++ m) := by
  induction m generalizing acc with
  | nil => simp [decodeEntries]
  | cons p rest ih =>
    obtain ⟨k, v⟩ := p
    unfold Map.WF Map.keys at hm
    simp only [List.map_cons, List.nodup_cons] at hm
    have hk : k ∉ acc.keys := hdisj k (by simp [Map.keys])
    have hstep : acc.insert k v = acc ++ [(k, v)] :=
      Map.insert_of_not_mem_keys acc k v hk
    have hdisj' : ∀ k', k' ∈ Map.keys rest → k' ∉ Map.keys (acc ++ [(k, v)]) := by
      intro k' hk'
      simp only [Map.keys, List.map_append] at hk' ⊢
      simp only [List.mem_append, List.map_cons, List.map_nil, List.mem_singleton]
      push_neg
      constructor
      · exact hdisj k' (by simp [Map.keys, hk'])
      · rintro rfl
        exact hm.1 hk'
    simp only [List.map_cons, decodeEntries, hc v]
    rw [hstep, ih (acc ++ [(k, v)]) hm.2 hdisj']
    simp

/-- Decoding is a left inverse of encoding on well-formed maps, whenever the
value codec is lossless. -/
theorem decodeMap_encodeMap (c : Codec α) (hc : c.RoundTrip) (m : Map α)
    (hm : m.WF) : decodeMap c (encodeMap c m) = some m := by
  have := decodeEntries_append_of_disjoint c hc m Map.empty hm
    (by intro k _; simp [Map.empty, Map.keys])
  simpa [decodeMap, encodeMap, Map.empty] using this

theorem WF_decodeEntries (c : Codec α) (fields : List (String × Json))
    (acc m : Map α) (hacc : acc.WF) (h : decodeEntries c fields acc = some m) :
    m.WF := by
  induction fields generalizing acc with
  | nil =>
    simp only [decodeEntries, Option.some.injEq] at h
    exact h ▸ hacc
  | cons p rest ih =>
    obtain ⟨k, j⟩ := p
    simp only [decodeEntries] at h
    cases hdec : c.dec j with
    | none => rw [hdec] at h; exact absurd h (by simp)
    | some v =>
      rw [hdec] at h
      exact ih (acc.insert k v) (Map.WF_insert acc k v hacc) h

/-- Every map `readData` can produce is well-formed. -/
theorem WF_readData (c : Codec α) (file : Option FileContent) (m : Map α)
    (h : readData c file = .ok m) : m.WF := by
  match file with
  | none =>
    simp only [readData, Except.ok.injEq] at h
    exact h ▸ List.nodup_nil
  | some .empty =>
    simp only [readData, Except.ok.injEq] at h
    exact h ▸ List.nodup_nil
  | some (.json j) =>
    simp only [readData] at h
    match j with
    | .null =>
      simp only [decodeMap, Option.some.injEq] at h
      simp only [Except.ok.injEq] at h
      exact h ▸ List.nodup_nil
    | .num n => simp [decodeMap] at h
    | .str s => simp [decodeMap] at h
    | .obj fields =>
      simp only [decodeMap] at h
      cases hdec : decodeEntries c fields Map.empty with
      | none => rw [hdec] at h; exact absurd h (by simp)
      | some m' =>
        rw [hdec] at h
        simp only [Except.ok.injEq] at h
        exact h ▸ WF_decodeEntries c fields Map.empty m' List.nodup_nil hdec
  | some .malformed => simp [readData] at h

theorem intCodec_roundTrip : intCodec.RoundTrip := fun _ => rfl

theorem Map.not_mem_keys_of_get_eq_none (m : Map α) (k : String)
    (h : m.get k = none) : k ∉ m.keys := by
  induction m with
  | nil => simp [keys]
  | cons p rest ih =>
    obtain ⟨k', v'⟩ := p
    by_cases hk : k = k'
    · simp [get, hk] at h
    · simp only [get, if_neg hk] at h
      simp only [keys, List.map_cons, List.mem_cons]
      push_neg
      exact ⟨hk, by simpa [keys] using ih h⟩

theorem Map.erase_of_not_mem_keys (m : Map α) (k : String) (h : k ∉ m.keys) :
    m.erase k = m := by
  induction m with
  | nil => rfl
  | cons p rest ih =>
    obtain ⟨k', v'⟩ := p
    simp only [keys, List.map_cons, List.mem_cons] at h
    push_neg at h
    simp [Map.erase, h.1, ih (by simpa [keys] using h.2)]

/-! ## Claims -/

/-- C1: if the batch function passed to `Transaction` returns a failure, the
call returns that failure, the store and the file are left untouched, and no
`Set`/`Delete` performed on the working copy is visible via `Get`/`GetAll`. -/
theorem C1_transaction_abort {α : Type u} (c : Codec α) (db : DB α) (w : World)
    (fn : Tx α → Tx α × Option Err) (e : Err)
    (h : (fn ⟨cloneMap db.data⟩).2 = some e) :
    (DB.Transaction c db w fn).2.2 = some e ∧
    (DB.Transaction c db w fn).1 = db ∧
    (DB.Transaction c db w fn).2.1 = w ∧
    (∀ k, (DB.Transaction c db w fn).1.Get k = db.Get k) ∧
    (DB.Transaction c db w fn).1.GetAll = db.GetAll := by
  rcases hfe : fn ⟨cloneMap db.data⟩ with ⟨tx', r⟩
  rw [hfe] at h
  simp only at h
  subst h
  simp [DB.Transaction, hfe]

/-- C1 witness: a concrete aborted transaction. -/
theorem C1_transaction_abort_witness :
    (DB.Transaction intCodec (⟨[("x", 5)]⟩ : DB Int) ⟨true, none, false⟩
        (fun tx => (tx.Set "a" 1, some (.batchErr 7)))).2.2 = some (.batchErr 7) ∧
    (DB.Transaction intCodec (⟨[("x", 5)]⟩ : DB Int) ⟨true, none, false⟩
        (fun tx => (tx.Set "a" 1, some (.batchErr 7)))).1 = ⟨[("x", 5)]⟩ :=
  have h := C1_transaction_abort intCodec (⟨[("x", 5)]⟩ : DB Int)
    ⟨true, none, false⟩ (fun tx => (tx.Set "a" 1, some (.batchErr 7)))
    (.batchErr 7) rfl
  ⟨h.1, h.2.1⟩

/-- C2: if `Set k v` succeeds, a subsequent `Get k` returns `(v, true)`. -/
theorem C2_set_then_get {α : Type u} (c : Codec α) (db : DB α) (w : World)
    (k : String) (v : α) (h : (DB.Set c db w k v).2.2 = none) :
    (DB.Set c db w k v).1.Get k = some v := by
  simp [DB.Set, DB.Get, Map.get_insert_self]

/-- C2 witness: a concrete successful `Set` followed by `Get`. -/
theorem C2_set_then_get_witness :
    (DB.Set intCodec (⟨[]⟩ : DB Int) ⟨true, none, false⟩ "user:1" 30).1.Get
      "user:1" = some 30 :=
  C2_set_then_get intCodec ⟨[]⟩ ⟨true, none, false⟩ "user:1" 30 rfl

/-- C4: when persistence fails, `Set`, `Delete` and a committing `Transaction`
return the write error with the in-memory mapping already updated (memory and
disk are left inconsistent, nothing is rolled back). -/
theorem C4_persist_failure_memory_updated {α : Type u} (c : Codec α)
    (db : DB α) (w : World) (k : String) (v : α)
    (fn : Tx α → Tx α × Option Err) (hw : w.writeFails = true) :
    ((DB.Set c db w k v).2.2 = some .writeErr ∧
      (DB.Set c db w k v).1.data = db.data.insert k v ∧
      (DB.Set c db w k v).1.Get k = some v) ∧
    ((DB.Delete c db w k).2.2 = some .writeErr ∧
      (DB.Delete c db w k).1.data = db.data.erase k) ∧
    ((fn ⟨cloneMap db.data⟩).2 = none →
      (DB.Transaction c db w fn).2.2 = some .writeErr ∧
      (DB.Transaction c db w fn).1.data = (fn ⟨cloneMap db.data⟩).1.data) := by
  refine ⟨⟨?_, ?_, ?_⟩, ⟨?_, ?_⟩, fun hfn => ?_⟩
  · simp [DB.Set, DB.persist, writeData, hw]
  · simp [DB.Set, DB.persist, writeData, hw]
  · simp [DB.Set, DB.persist, writeData, hw, DB.Get, Map.get_insert_self]
  · simp [DB.Delete, DB.persist, writeData, hw]
  · simp [DB.Delete, DB.persist, writeData, hw]
  · rcases hfe : fn ⟨cloneMap db.data⟩ with ⟨tx', r⟩
    rw [hfe] at hfn
    simp only at hfn
    subst hfn
    constructor
    · simp [DB.Transaction, hfe, DB.persist, writeData, hw]
    · simp [DB.Transaction, hfe, DB.persist, writeData, hw]

/-- C4 witness: a concrete failing persist after `Set`. -/
theorem C4_persist_failure_memory_updated_witness :
    (DB.Set intCodec (⟨[]⟩ : DB Int) ⟨true, none, true⟩ "k" 1).2.2
        = some .writeErr ∧
    (DB.Set intCodec (⟨[]⟩ : DB Int) ⟨true, none, true⟩ "k" 1).1.data
        = [("k", 1)] :=
  have h := C4_persist_failure_memory_updated intCodec (⟨[]⟩ : DB Int)
    ⟨true, none, true⟩ "k" 1 (fun tx => (tx, none)) rfl
  ⟨h.1.1, h.1.2.1⟩

/-- C7: after `Delete k` succeeds, `Get k` is not-found, deleting the absent
key again succeeds without error, and the second delete is a no-op on the
mapping. -/
theorem C7_delete_then_get {α : Type u} (c : Codec α) (db : DB α) (w : World)
    (k : String) (hwf : db.data.WF) (hw : w.writeFails = false) :
    (DB.Delete c db w k).2.2 = none ∧
    (DB.Delete c db w k).1.Get k = none ∧
    (DB.Delete c (DB.Delete c db w k).1 (DB.Delete c db w k).2.1 k).2.2
      = none ∧
    (DB.Delete c (DB.Delete c db w k).1 (DB.Delete c db w k).2.1 k).1.data
      = (DB.Delete c db w k).1.data := by
  refine ⟨?_, ?_, ?_, ?_⟩
  · simp [DB.Delete, DB.persist, writeData, hw]
  · simp [DB.Delete, DB.persist, writeData, hw, DB.Get,
      Map.get_erase_self db.data k hwf]
  · simp [DB.Delete, DB.persist, writeData, hw]
  · have hmem : k ∉ (db.data.erase k).keys :=
      Map.not_mem_keys_of_get_eq_none _ _ (Map.get_erase_self db.data k hwf)
    simp [DB.Delete, DB.persist, writeData, hw,
      Map.erase_of_not_mem_keys _ _ hmem]

/-- C7 witness: a concrete double delete. -/
theorem C7_delete_then_get_witness :
    (DB.Delete intCodec (⟨[("k", 1)]⟩ : DB Int) ⟨true, none, false⟩ "k").2.2
        = none ∧
    (DB.Delete intCodec (⟨[("k", 1)]⟩ : DB Int) ⟨true, none, false⟩
        "k").1.Get "k" = none :=
  have h := C7_delete_then_get intCodec (⟨[("k", 1)]⟩ : DB Int)
    ⟨true, none, false⟩ "k" (by simp [Map.WF, Map.keys]) rfl
  ⟨h.1, h.2.1⟩

/-- C9: `Set k v` twice with the same value leaves the store, the file and
the returned error identical to calling it once. -/
theorem C9_set_idempotent {α : Type u} (c : Codec α) (db : DB α) (w : World)
    (k : String) (v : α) :
    DB.Set c (DB.Set c db w k v).1 (DB.Set c db w k v).2.1 k v
      = DB.Set c db w k v := by
  by_cases hw : w.writeFails
  · simp [DB.Set, DB.persist, writeData, hw, Map.insert_insert_same]
  · simp [DB.Set, DB.persist, writeData, hw, Map.insert_insert_same]

/-- C9 witness: a concrete double `Set`. -/
theorem C9_set_idempotent_witness :
    DB.Set intCodec (DB.Set intCodec (⟨[]⟩ : DB Int) ⟨true, none, false⟩ "k" 1).1
        (DB.Set intCodec (⟨[]⟩ : DB Int) ⟨true, none, false⟩ "k" 1).2.1 "k" 1
      = DB.Set intCodec (⟨[]⟩ : DB Int) ⟨true, none, false⟩ "k" 1 :=
  C9_set_idempotent intCodec ⟨[]⟩ ⟨true, none, false⟩ "k" 1

/-- C8: starting from an empty store, a committing transaction doing
`Set "a" 1`, `Set "b" 2`, `Delete "a"` leaves `GetAll` equal to
`{"b": 2}`; the operations act on the working copy in order (the
`Delete` removes the key the first `Set` wrote, and `Tx.Get` sees an
earlier `Tx.Set`), and on success the working copy replaces the store's
mapping wholesale. -/
theorem C8_transaction_scenario :
    (DB.Transaction intCodec (⟨Map.empty⟩ : DB Int) ⟨true, none, false⟩
        (fun tx => (((tx.Set "a" 1).Set "b" 2).Delete "a", none))).1.GetAll
      = [("b", 2)] ∧
    (DB.Transaction intCodec (⟨Map.empty⟩ : DB Int) ⟨true, none, false⟩
        (fun tx => (((tx.Set "a" 1).Set "b" 2).Delete "a", none))).2.2
      = none ∧
    ((⟨Map.empty⟩ : Tx Int).Set "a" 1).Get "a" = some 1 := by
  refine ⟨?_, rfl, rfl⟩
  simp [DB.Transaction, DB.GetAll, cloneMap, Map.empty, Tx.Set, Tx.Delete,
    Tx.Get, Map.insert, Map.erase, DB.persist, writeData]

/-- C3: after any successful `Set`, `Delete` or committing `Transaction`, a
fresh read of the file decodes to exactly the current in-memory mapping, and
`decodeMap` inverts `encodeMap` on the mapping returned by `GetAll`
(assuming the element codec is lossless and the batch function keeps the
working copy well-formed, as every sequence of `Tx` operations does). -/
theorem C3_persist_roundtrip {α : Type u} (c : Codec α) (hc : c.RoundTrip)
    (db : DB α) (w : World) (k : String) (v : α)
    (fn : Tx α → Tx α × Option Err) (hwf : db.data.WF)
    (hfn : (fn ⟨cloneMap db.data⟩).1.data.WF) :
    ((DB.Set c db w k v).2.2 = none →
      readData c (DB.Set c db w k v).2.1.file = .ok (DB.Set c db w k v).1.data) ∧
    ((DB.Delete c db w k).2.2 = none →
      readData c (DB.Delete c db w k).2.1.file
        = .ok (DB.Delete c db w k).1.data) ∧
    ((DB.Transaction c db w fn).2.2 = none →
      readData c (DB.Transaction c db w fn).2.1.file
        = .ok (DB.Transaction c db w fn).1.data) ∧
    decodeMap c (encodeMap c (DB.GetAll db)) = some (DB.GetAll db) := by
  have hread : ∀ m : Map α, m.WF →
      readData c (some (.json (encodeMap c m))) = .ok m := by
    intro m hm
    simp [readData, decodeMap_encodeMap c hc m hm]
  refine ⟨fun hs => ?_, fun hd => ?_, fun ht => ?_, ?_⟩
  · by_cases hw : w.writeFails
    · simp [DB.Set, DB.persist, writeData, hw] at hs
    · simpa [DB.Set, DB.persist, writeData, hw] using
        hread _ (Map.WF_insert db.data k v hwf)
  · by_cases hw : w.writeFails
    · simp [DB.Delete, DB.persist, writeData, hw] at hd
    · simpa [DB.Delete, DB.persist, writeData, hw] using
        hread _ (Map.WF_erase db.data k hwf)
  · rcases hfe : fn ⟨cloneMap db.data⟩ with ⟨tx', r⟩
    rw [hfe] at hfn
    simp only at hfn
    cases r with
    | some e => simp [DB.Transaction, hfe] at ht
    | none =>
      by_cases hw : w.writeFails
      · simp [DB.Transaction, hfe, DB.persist, writeData, hw] at ht
      · simpa [DB.Transaction, hfe, DB.persist, writeData, hw] using
          hread tx'.data hfn
  · exact decodeMap_encodeMap c hc (DB.GetAll db)
      (by rw [DB.GetAll, cloneMap_eq]; exact hwf)

/-- C3 witness: a concrete successful `Set` whose file decodes back to the
in-memory mapping. -/
theorem C3_persist_roundtrip_witness :
    readData intCodec
        (DB.Set intCodec (⟨[]⟩ : DB Int) ⟨true, none, false⟩ "k" 1).2.1.file
      = .ok (DB.Set intCodec (⟨[]⟩ : DB Int) ⟨true, none, false⟩ "k" 1).1.data :=
  (C3_persist_roundtrip intCodec intCodec_roundTrip (⟨[]⟩ : DB Int)
    ⟨true, none, false⟩ "k" 1 (fun tx => (tx, none)) List.nodup_nil
    List.nodup_nil).1 rfl

/-- C5: opening a missing file or an empty file yields a store with the empty
mapping; opening a non-empty file that fails to decode (a JSON document of
the wrong shape, or malformed bytes) returns a decode error and no store. -/
theorem C5_open_cases {α : Type u} (c : Codec α) (w₀ w₁ : World)
    (h₀ : w₀.file = none) (h₁ : w₁.file = some .empty) :
    (Open c w₀).1 = .ok (⟨Map.empty⟩ : DB α) ∧
    (Open c w₁).1 = .ok (⟨Map.empty⟩ : DB α) ∧
    (∀ (w : World) (j : Json), w.file = some (.json j) → decodeMap c j = none →
      (Open c w).1 = .error Err.decodeErr) ∧
    (∀ w : World, w.file = some .malformed →
      (Open c w).1 = .error Err.decodeErr) := by
  refine ⟨?_, ?_, fun w j hw hj => ?_, fun w hw => ?_⟩
  · simp [Open, h₀, readData]
  · simp [Open, h₁, readData]
  · simp [Open, hw, readData, hj]
  · simp [Open, hw, readData]

/-- C5 witness: concrete worlds for all three cases (the undecodable document
is a JSON string where an object of integers is expected). -/
theorem C5_open_cases_witness :
    (Open intCodec ⟨false, none, false⟩).1 = .ok (⟨Map.empty⟩ : DB Int) ∧
    (Open intCodec ⟨false, some .empty, false⟩).1 = .ok (⟨Map.empty⟩ : DB Int) ∧
    (Open intCodec ⟨false, some (.json (.str "oops")), false⟩).1
      = .error Err.decodeErr ∧
    (Open intCodec ⟨false, some .malformed, false⟩).1 = .error Err.decodeErr :=
  have h := C5_open_cases intCodec ⟨false, none, false⟩
    ⟨false, some .empty, false⟩ rfl rfl
  ⟨h.1, h.2.1, h.2.2.1 ⟨false, some (.json (.str "oops")), false⟩
    (.str "oops") rfl rfl, h.2.2.2 ⟨false, some .malformed, false⟩ rfl⟩

/-- C10: `Open` never creates or writes the backing file (it only creates the
containing directory), so after opening a non-existent location no file
exists there; the file is first created by the first successful `Set`,
`Delete` or committing `Transaction`, each of which writes the encoded
mapping. -/
theorem C10_open_never_writes {α : Type u} (c : Codec α) (w : World)
    (db : DB α) (k : String) (v : α) (fn : Tx α → Tx α × Option Err) :
    (Open c w).2.file = w.file ∧
    (Open c w).2.dirExists = true ∧
    (w.file = none → (Open c w).2.file = none) ∧
    ((DB.Set c db w k v).2.2 = none →
      (DB.Set c db w k v).2.1.file
        = some (.json (encodeMap c (db.data.insert k v)))) ∧
    ((DB.Delete c db w k).2.2 = none →
      (DB.Delete c db w k).2.1.file
        = some (.json (encodeMap c (db.data.erase k)))) ∧
    ((fn ⟨cloneMap db.data⟩).2 = none → (DB.Transaction c db w fn).2.2 = none →
      (DB.Transaction c db w fn).2.1.file
        = some (.json (encodeMap c (fn ⟨cloneMap db.data⟩).1.data))) := by
  have hopen : (Open c w).2 = { w with dirExists := true } := by
    simp only [Open]
    cases h : readData c ({ w with dirExists := true } : World).file with
    | ok d => simp [h]
    | error e => simp [h]
  refine ⟨by rw [hopen], by rw [hopen], fun h0 => by rw [hopen]; exact h0,
    fun hs => ?_, fun hd => ?_, fun hfn ht => ?_⟩
  · by_cases hw : w.writeFails
    · simp [DB.Set, DB.persist, writeData, hw] at hs
    · simp [DB.Set, DB.persist, writeData, hw]
  · by_cases hw : w.writeFails
    · simp [DB.Delete, DB.persist, writeData, hw] at hd
    · simp [DB.Delete, DB.persist, writeData, hw]
  · rcases hfe : fn ⟨cloneMap db.data⟩ with ⟨tx', r⟩
    rw [hfe] at hfn
    simp only at hfn
    subst hfn
    by_cases hw : w.writeFails
    · simp [DB.Transaction, hfe, DB.persist, writeData, hw] at ht
    · simp [DB.Transaction, hfe, DB.persist, writeData, hw]

/-- C10 witness: opening a non-existent location leaves no file; a first
successful `Set` creates it. -/
theorem C10_open_never_writes_witness :
    (Open intCodec ⟨false, none, false⟩).2.file = (none : Option FileContent) ∧
    (DB.Set intCodec (⟨[]⟩ : DB Int) ⟨false, none, false⟩ "k" 1).2.1.file
      = some (.json (encodeMap intCodec (Map.insert [] "k" 1))) :=
  have h := C10_open_never_writes intCodec ⟨false, none, false⟩
    (⟨[]⟩ : DB Int) "k" 1 (fun tx => (tx, none))
  ⟨h.2.2.1 rfl, h.2.2.2.1 rfl⟩

/-- C6 (counterexample): with the element type instantiated at a pointer
type, `Get` returns the stored pointer itself (not an independent copy), and
writing through that returned pointer changes the store's observable
contents — so external mutation of a returned composite value can alter the
store's state. -/
theorem C6_value_alias_counterexample :
    DB.Get (⟨[("k", 0)]⟩ : DB Aliasing.Ptr) "k" = some 0 ∧
    Aliasing.derefAll (⟨[(0, 5)]⟩ : Aliasing.PtrHeap)
        (⟨[("k", 0)]⟩ : DB Aliasing.Ptr).data = [("k", some 5)] ∧
    Aliasing.derefAll
        (Aliasing.PtrHeap.write ⟨[(0, 5)]⟩
          ((DB.Get (⟨[("k", 0)]⟩ : DB Aliasing.Ptr) "k").getD 0) 9)
        (⟨[("k", 0)]⟩ : DB Aliasing.Ptr).data = [("k", some 9)] ∧
    [("k", (some 5 : Option Int))] ≠ [("k", (some 9 : Option Int))] :=
  ⟨rfl, rfl, rfl, by decide⟩

/-- C6 (amended): `GetAll` allocates a fresh map object and copies the
entries into it, so mutating the map returned by `GetAll` never affects the
store's mapping. -/
theorem C6_getall_independent_copy {α : Type u} (h : Aliasing.MapHeap α)
    (db : Aliasing.DBref α) (k : String) (v : α)
    (hvalid : db.dataRef < h.next) :
    ((Aliasing.GetAll h db).1.assign (Aliasing.GetAll h db).2 k v).deref
        db.dataRef
      = h.deref db.dataRef := by
  have hne : db.dataRef ≠ h.next := Nat.ne_of_lt hvalid
  have hfind : ∀ l : List (Aliasing.MapRef × Map α),
      (l.map (fun p => if p.1 = h.next then (p.1, p.2.insert k v) else p)).find?
          (fun p => p.1 == db.dataRef)
        = l.find? (fun p => p.1 == db.dataRef) := by
    intro l
    induction l with
    | nil => rfl
    | cons q rest ih =>
      by_cases hq : q.1 = h.next
      · have hpred : (q.1 == db.dataRef) = false := by
          simp [hq]
          exact fun e => hne e.symm
        simp only [List.map_cons, if_pos hq, List.find?, hpred, ih]
      · by_cases hpred : (q.1 == db.dataRef) = true
        · simp only [List.map_cons, if_neg hq, List.find?, hpred]
        · have hpred' : (q.1 == db.dataRef) = false :=
            Bool.eq_false_iff.mpr hpred
          simp only [List.map_cons, if_neg hq, List.find?, hpred', ih]
  have hhead : ((h.next : Aliasing.MapRef) == db.dataRef) = false := by
    simp
    exact fun e => hne e.symm
  show Aliasing.MapHeap.deref _ db.dataRef = _
  unfold Aliasing.MapHeap.deref Aliasing.MapHeap.assign
  rw [show ((Aliasing.GetAll h db).1.objs)
      = (h.next, cloneMap ((h.deref db.dataRef).getD Map.empty)) :: h.objs from rfl,
    show (Aliasing.GetAll h db).2 = h.next from rfl]
  simp [List.find?, hhead, hfind]

/-- C6 (amended) witness: a concrete heap where assigning into the map
returned by `GetAll` leaves the store's map object unchanged. -/
theorem C6_getall_independent_copy_witness :
    ((Aliasing.GetAll (⟨[(0, [("x", (1 : Int))])], 1⟩ : Aliasing.MapHeap Int)
          ⟨0⟩).1.assign
        (Aliasing.GetAll (⟨[(0, [("x", (1 : Int))])], 1⟩ : Aliasing.MapHeap Int)
          ⟨0⟩).2 "x" 2).deref 0
      = (⟨[(0, [("x", (1 : Int))])], 1⟩ : Aliasing.MapHeap Int).deref 0 :=
  C6_getall_independent_copy ⟨[(0, [("x", 1)])], 1⟩ ⟨0⟩ "x" 2 (by decide)

end SmallDB
